import Mathlib

/-!
Shallow embedding of the text-length-management pipeline of
`backend/main.py` (video summarizer): the word chunker `chunk_text`, the
summarization orchestrator `summarize_with_huggingface`, the bullet-point
formatter, the sentence-based translation helper `translate_to_english`,
and the per-segment translation endpoint `translate_transcript_segments`.

Python strings are modelled as `List Char`; Python `str.split()` /
`' '.join` / `str.strip()` / `str.split('. ')` are modelled by executable
functions below.  The generation and translation collaborators (the
Hugging Face pipelines) are oracles passed as function arguments; a
translation call that raises is modelled by the oracle returning `none`.
Python integer arithmetic on length parameters is modelled with `Int`
(`//` is floor division, `Int.fdiv`).
-/

set_option maxHeartbeats 1000000
set_option maxRecDepth 8000

namespace VideoSummarizer

/-- Python strings are modelled as lists of characters. -/
abbrev PyStr := List Char

/-- Whitespace test backing the model of Python `str.split()`.
`Char.isWhitespace` covers space, tab, CR and LF. -/
def isWs (c : Char) : Bool := c.isWhitespace

/-- Worker for `pySplit`; `acc` holds the characters of the word currently
being read, in reverse order. -/
def splitWsAux : List Char → List Char → List PyStr
  | [], acc => if acc = [] then [] else [acc.reverse]
  | c :: rest, acc =>
    if isWs c then
      if acc = [] then splitWsAux rest [] else acc.reverse :: splitWsAux rest []
    else splitWsAux rest (c :: acc)

/-- Model of Python `text.split()`: split on runs of whitespace, discarding
empty pieces, so every returned word is non-empty and whitespace-free. -/
def pySplit (s : PyStr) : List PyStr := splitWsAux s []

/-- Model of Python `sep.join(xs)`. -/
def joinSep (sep : PyStr) : List PyStr → PyStr
  | [] => []
  | [w] => w
  | w :: ws => w ++ sep ++ joinSep sep ws

/-- Model of Python `' '.join(xs)`. -/
def sjoin (ws : List PyStr) : PyStr := joinSep [' '] ws

/-- Number of whitespace-separated words, as used throughout the source via
`len(text.split())`; returned as `Int` because it enters Python integer
arithmetic. -/
def wordCountI (s : PyStr) : Int := ((pySplit s).length : Int)

/-- Loop of `chunk_text` (source lines 98–113): `cur` holds the current
chunk's words, `curLen` the accumulated character count (each word counted
as `len(word) + 1`).  The source's float test
`(current_length + word_length) / 1.3 > max_chunk_size` is modelled by the
exact rational comparison `(curLen + wl) * 10 > budget * 13`; at the only
budget the summarizer passes (900) the float test and the rational test
agree (both close a chunk exactly when the character count exceeds 1170). -/
def chunkLoop (budget : Nat) : List PyStr → List PyStr → Nat → List PyStr
  | [], cur, _ => if cur = [] then [] else [sjoin cur]
  | w :: ws, cur, curLen =>
    let wl := w.length + 1
    if (curLen + wl) * 10 > budget * 13 then
      if cur = [] then chunkLoop budget ws [w] w.length
      else sjoin cur :: chunkLoop budget ws [w] w.length
    else chunkLoop budget ws (cur ++ [w]) (curLen + wl)

/-- Model of `chunk_text` (source lines 91–115). -/
def chunk_text (text : PyStr) (max_chunk_size : Nat) : List PyStr :=
  chunkLoop max_chunk_size (pySplit text) [] 0

/-- Model of Python `text.split('. ')`: split on the literal two-character
separator, scanning left to right. -/
def splitDotSpace : PyStr → List PyStr
  | [] => [[]]
  | [c] => [[c]]
  | c :: d :: rest =>
    if c = '.' ∧ d = ' ' then [] :: splitDotSpace rest
    else
      match splitDotSpace (d :: rest) with
      | [] => [[c]]
      | w :: ws => (c :: w) :: ws

/-- Model of Python `str.strip()` (with the whitespace set of `isWs`). -/
def strip (s : PyStr) : PyStr :=
  ((s.dropWhile isWs).reverse.dropWhile isWs).reverse

/-- The sentence list built by the bullet formatter (source lines 221–222):
split on `". "`, strip each piece, drop the pieces that are empty after
stripping. -/
def bulletSentences (text : PyStr) : List PyStr :=
  ((splitDotSpace text).map strip).filter (fun s => !s.isEmpty)

/-- Model of the bullet-point formatter (source lines 221–222 / 243–244 /
263–264): `"• " + "\n• ".join(sentences)`. -/
def bulletize (text : PyStr) : PyStr :=
  ("• ".toList) ++ joinSep ("\n• ".toList) (bulletSentences text)

/-- One call issued to the generation collaborator: the text handed over and
the `max_length` / `min_length` parameters of that call. -/
structure GenCall where
  text : PyStr
  max_length : Int
  min_length : Int
  deriving DecidableEq

/-- The generation collaborator (the `summarizer` pipeline, called with
`do_sample=False`, hence deterministic): text, `max_length`, `min_length`
to summary text. -/
abbrev Summarizer := PyStr → Int → Int → PyStr

/-- Model of the `max_length_params` dictionary lookup with fallback
(source lines 169–175): `dict.get(summary_type, params["detailed"])`. -/
def getParams (summary_type : PyStr) : Int × Int :=
  if summary_type = "detailed".toList then (300, 150)
  else if summary_type = "brief".toList then (100, 40)
  else if summary_type = "bullet_points".toList then (200, 80)
  else (300, 150)

/-- The adjusted minimum length (source lines 178–179):
`adjusted_min_length = max(min(min_length, word_count - 10, max_length - 20), 10)`. -/
def adjustedMin (target_max target_min word_count : Int) : Int :=
  max (min target_min (min (word_count - 10) (target_max - 20))) 10

/-- The per-chunk parameter derivation (source lines 190–191):
`chunk_max = max(params["max_length"] // max(len(chunks), 1), 50)` and
`chunk_min = max(adjusted_min_length // max(len(chunks), 1), 10)`. -/
def perChunkParams (target_max adjusted_min_length : Int) (numChunks : Nat) : Int × Int :=
  (max (Int.fdiv target_max (max (numChunks : Int) 1)) 50,
   max (Int.fdiv adjusted_min_length (max (numChunks : Int) 1)) 10)

/-- The per-chunk summarization loop (source lines 193–213), returning the
chunk summaries in order together with the generation calls issued.
Chunks of fewer than 20 words are passed through verbatim with no call. -/
def summarizeChunksLoop (gen : Summarizer) (chunk_max chunk_min : Int) :
    List PyStr → List PyStr × List GenCall
  | [] => ([], [])
  | chunk :: rest =>
    let chunk_words : Int := wordCountI chunk
    if chunk_words < 20 then
      let r := summarizeChunksLoop gen chunk_max chunk_min rest
      (chunk :: r.1, r.2)
    else
      let safe_min := max (min chunk_min (min (chunk_words - 5) (chunk_max - 10))) 10
      let s := gen chunk chunk_max safe_min
      let r := summarizeChunksLoop gen chunk_max chunk_min rest
      (s :: r.1, ⟨chunk, chunk_max, safe_min⟩ :: r.2)

/-- The chunked branch of `summarize_with_huggingface`
(source lines 182–248): chunk with budget 900, summarize each chunk,
combine with spaces; for `bullet_points` format the combination as bullets,
otherwise re-summarize once if the combination still exceeds the target.
The source repeats a `bullet_points` formatting check inside the
re-summarization branch (lines 242–244); it is dead there (bullets
returned earlier) but kept for faithfulness. -/
def chunkedPath (gen : Summarizer) (transcript summary_type : PyStr)
    (target_max adjusted_min_length : Int) : PyStr × List GenCall :=
  let chunks := chunk_text transcript 900
  let p := perChunkParams target_max adjusted_min_length chunks.length
  let r := summarizeChunksLoop gen p.1 p.2 chunks
  let combined_summary := sjoin r.1
  if summary_type = "bullet_points".toList then
    (bulletize combined_summary, r.2)
  else
    let combined_words := wordCountI combined_summary
    if combined_words > target_max then
      let safe_min_final :=
        max (min adjusted_min_length (min (combined_words - 10) (target_max - 20))) 10
      let final_text := gen combined_summary target_max safe_min_final
      if summary_type = "bullet_points".toList then
        (bulletize final_text, r.2 ++ [⟨combined_summary, target_max, safe_min_final⟩])
      else (final_text, r.2 ++ [⟨combined_summary, target_max, safe_min_final⟩])
    else (combined_summary, r.2)

/-- The direct branch of `summarize_with_huggingface`
(source lines 249–266): one generation call on the whole transcript with
`max_length = min(params["max_length"], word_count + 50)`. -/
def directPath (gen : Summarizer) (transcript summary_type : PyStr)
    (target_max adjusted_min_length word_count : Int) : PyStr × List GenCall :=
  let max_len := min target_max (word_count + 50)
  let summary_text := gen transcript max_len adjusted_min_length
  let calls : List GenCall := [⟨transcript, max_len, adjusted_min_length⟩]
  if summary_type = "bullet_points".toList then (bulletize summary_text, calls)
  else (summary_text, calls)

/-- Model of `summarize_with_huggingface` (source lines 156–266),
instrumented to also return the list of generation-collaborator calls
issued, in order. -/
def summarize_with_huggingface (gen : Summarizer) (transcript : PyStr)
    (summary_type : PyStr) : PyStr × List GenCall :=
  let word_count := wordCountI transcript
  if word_count < 30 then (transcript, [])
  else
    let params := getParams summary_type
    let adjusted_min_length := adjustedMin params.1 params.2 word_count
    if word_count > 700 then
      chunkedPath gen transcript summary_type params.1 adjusted_min_length
    else
      directPath gen transcript summary_type params.1 adjusted_min_length word_count

/-- One step of the sentence-accumulating translation chunker
(source lines 129–135): greedy packing of `". "`-separated sentences into
chunks, closing the current chunk when its length plus the next sentence's
length exceeds 400 characters. -/
def transStep (acc : List PyStr × PyStr) (sentence : PyStr) : List PyStr × PyStr :=
  if acc.2.length + sentence.length > 400 then
    (if acc.2 = [] then acc.1 else acc.1 ++ [acc.2], sentence)
  else (acc.1, acc.2 ++ (if acc.2 = [] then [] else ". ".toList) ++ sentence)

/-- The chunk list built by `translate_to_english` for long text
(source lines 124–138). -/
def translationChunks (text : PyStr) : List PyStr :=
  let r := (splitDotSpace text).foldl transStep ([], [])
  if r.2 = [] then r.1 else r.1 ++ [r.2]

/-- The per-chunk translation loop (source lines 141–144); the oracle
returning `none` models the translation pipeline raising, which aborts the
loop. -/
def translateChunksLoop (tr : PyStr → Option PyStr) : List PyStr → Option (List PyStr)
  | [] => some []
  | c :: cs =>
    match tr c with
    | none => none
    | some t =>
      match translateChunksLoop tr cs with
      | none => none
      | some ts => some (t :: ts)

/-- Model of `translate_to_english` (source lines 118–153).  The whole body
sits in one `try`; `none` anywhere in it falls through to the `except`
handler, which returns the original text. -/
def translate_to_english (tr : PyStr → Option PyStr) (text : PyStr) : PyStr :=
  let attempt : Option PyStr :=
    if text.length > 400 then
      match translateChunksLoop tr (translationChunks text) with
      | none => none
      | some ts => some (sjoin ts)
    else tr text
  match attempt with
  | some result => result
  | none => text

/-- A transcript segment (source lines 55–58).  Python's float timestamps
are only ever copied, never computed with, so they are modelled as
rationals; the `end` field is named `stop` because `end` is a reserved
word in Lean. -/
structure TranscriptSegment where
  start : Rat
  stop : Rat
  text : PyStr
  deriving DecidableEq

/-- One entry of the response of `translate_transcript_segments`
(source lines 429–434). -/
structure TranslatedSegment where
  start : Rat
  stop : Rat
  text : PyStr
  translated : PyStr
  deriving DecidableEq

/-- Model of `translate_transcript_segments` (source lines 419–438): one
output entry per input segment, copying `start`/`end`/`text` and adding the
translation of the segment's text. -/
def translate_transcript_segments (tr : PyStr → Option PyStr)
    (segments : List TranscriptSegment) : List TranslatedSegment :=
  segments.map fun seg =>
    { start := seg.start, stop := seg.stop, text := seg.text,
      translated := translate_to_english tr seg.text }

/-! ### Lemmas about `pySplit` and joining -/

theorem splitWsAux_ne_nil (s : List Char) :
    ∀ (acc : List Char), ∀ w ∈ splitWsAux s acc, w ≠ [] := by
  induction s with
  | nil =>
    intro acc w hw
    unfold splitWsAux at hw
    split at hw
    · simp at hw
    · next h =>
      simp only [List.mem_singleton] at hw
      simp [hw, h]
  | cons c rest ih =>
    intro acc w hw
    unfold splitWsAux at hw
    split at hw
    · split at hw
      · exact ih [] w hw
      · next h =>
        rcases List.mem_cons.mp hw with h1 | h1
        · simp [h1, h]
        · exact ih [] w h1
    · exact ih (c :: acc) w hw

theorem splitWsAux_no_ws (s : List Char) :
    ∀ (acc : List Char), (∀ c ∈ acc, isWs c = false) →
      ∀ w ∈ splitWsAux s acc, ∀ c ∈ w, isWs c = false := by
  induction s with
  | nil =>
    intro acc hacc w hw c hc
    unfold splitWsAux at hw
    split at hw
    · simp at hw
    · simp only [List.mem_singleton] at hw
      subst hw
      exact hacc c (List.mem_reverse.mp hc)
  | cons a rest ih =>
    intro acc hacc w hw c hc
    unfold splitWsAux at hw
    split at hw
    · split at hw
      · exact ih [] (by simp) w hw c hc
      · rcases List.mem_cons.mp hw with h1 | h1
        · subst h1
          exact hacc c (List.mem_reverse.mp hc)
        · exact ih [] (by simp) w h1 c hc
    · next h =>
      refine ih (a :: acc) ?_ w hw c hc
      intro d hd
      rcases List.mem_cons.mp hd with h1 | h1
      · subst h1
        exact Bool.not_eq_true _ ▸ eq_false_of_ne_true h
      · exact hacc d h1

theorem pySplit_words_ne_nil (s : PyStr) : ∀ w ∈ pySplit s, w ≠ [] :=
  splitWsAux_ne_nil s []

theorem pySplit_words_no_ws (s : PyStr) :
    ∀ w ∈ pySplit s, ∀ c ∈ w, isWs c = false :=
  splitWsAux_no_ws s [] (by simp)

theorem splitWsAux_append (w : List Char) (hw : ∀ c ∈ w, isWs c = false) :
    ∀ (s acc : List Char), splitWsAux (w ++ s) acc = splitWsAux s (w.reverse ++ acc) := by
  induction w with
  | nil => intro s acc; simp
  | cons c w' ih =>
    intro s acc
    have hc : isWs c = false := hw c (by simp)
    have hw' : ∀ d ∈ w', isWs d = false := fun d hd => hw d (by simp [hd])
    simp only [List.cons_append]
    rw [show splitWsAux (c :: (w' ++ s)) acc = splitWsAux (w' ++ s) (c :: acc) by
      simp [splitWsAux, hc]]
    rw [ih hw' s (c :: acc)]
    simp

theorem joinSep_ne_nil (sep : PyStr) (w : PyStr) (ws : List PyStr) (hw : w ≠ []) :
    joinSep sep (w :: ws) ≠ [] := by
  cases ws with
  | nil => simpa [joinSep] using hw
  | cons y ys => simp [joinSep, hw]

theorem joinSep_cons (sep x : PyStr) (t : List PyStr) (ht : t ≠ []) :
    joinSep sep (x :: t) = x ++ sep ++ joinSep sep t := by
  cases t with
  | nil => exact absurd rfl ht
  | cons u us => simp [joinSep]

theorem joinSep_append (sep : PyStr) :
    ∀ (g h : List PyStr), g ≠ [] → h ≠ [] →
      joinSep sep (g ++ h) = joinSep sep g ++ sep ++ joinSep sep h := by
  intro g
  induction g with
  | nil => intro h hg _; exact absurd rfl hg
  | cons x g' ih =>
    intro h _ hh
    cases g' with
    | nil =>
      cases h with
      | nil => exact absurd rfl hh
      | cons y h' => simp [joinSep]
    | cons z g'' =>
      have e1 : (x :: z :: g'') ++ h = x :: ((z :: g'') ++ h) := rfl
      rw [e1, joinSep_cons sep x _ (by simp), joinSep_cons sep x _ (by simp),
        ih h (by simp) hh]
      simp [List.append_assoc]

theorem sjoin_append (g h : List PyStr) (hg : g ≠ []) (hh : h ≠ []) :
    sjoin (g ++ h) = sjoin g ++ ' ' :: sjoin h := by
  have := joinSep_append [' '] g h hg hh
  simpa [sjoin] using this

theorem sjoin_map_sjoin :
    ∀ (gs : List (List PyStr)), (∀ g ∈ gs, g ≠ []) →
      sjoin (gs.map sjoin) = sjoin gs.flatten := by
  intro gs
  induction gs with
  | nil => intro _; rfl
  | cons g gs' ih =>
    intro hg
    cases gs' with
    | nil => simp [sjoin, joinSep]
    | cons g' gs'' =>
      have hgne : g ≠ [] := hg g (by simp)
      have hjoin_ne : (g' :: gs'').flatten ≠ [] := by
        have : g' ≠ [] := hg g' (by simp)
        cases g' with
        | nil => exact absurd rfl this
        | cons a b => simp
      have hmap : sjoin ((g :: g' :: gs'').map sjoin) =
          sjoin g ++ ' ' :: sjoin ((g' :: gs'').map sjoin) := by
        simp only [List.map_cons, sjoin, joinSep]
        simp
      rw [hmap, ih (fun x hx => hg x (by simp [hx]))]
      have : (g :: g' :: gs'').flatten = g ++ (g' :: gs'').flatten := by simp
      rw [this, sjoin_append g _ hgne hjoin_ne]

theorem pySplit_sjoin :
    ∀ (ws : List PyStr), (∀ w ∈ ws, w ≠ []) → (∀ w ∈ ws, ∀ c ∈ w, isWs c = false) →
      pySplit (sjoin ws) = ws := by
  intro ws
  induction ws with
  | nil => intro _ _; rfl
  | cons w rest ih =>
    intro hne hws
    have hwne : w ≠ [] := hne w (by simp)
    have hwws : ∀ c ∈ w, isWs c = false := hws w (by simp)
    cases rest with
    | nil =>
      show pySplit (joinSep [' '] [w]) = [w]
      simp only [joinSep]
      unfold pySplit
      rw [show w = w ++ [] by simp, splitWsAux_append w hwws [] []]
      unfold splitWsAux
      simp [hwne]
    | cons w' rest' =>
      have hstep : sjoin (w :: w' :: rest') = w ++ ' ' :: sjoin (w' :: rest') := by
        simp [sjoin, joinSep]
      unfold pySplit
      rw [hstep, splitWsAux_append w hwws _ []]
      unfold splitWsAux
      rw [if_pos (by simp [isWs])]
      rw [if_neg (by simp [hwne])]
      simp only [List.append_nil, List.reverse_reverse]
      have := ih (fun x hx => hne x (by simp [hx])) (fun x hx => hws x (by simp [hx]))
      unfold pySplit at this
      rw [this]

/-! ### Lemmas about `chunk_text` -/

theorem chunkLoop_groups (budget : Nat) :
    ∀ (ws cur : List PyStr) (curLen : Nat),
      ∃ groups : List (List PyStr),
        chunkLoop budget ws cur curLen = groups.map sjoin ∧
        groups.flatten = cur ++ ws ∧
        (∀ g ∈ groups, g ≠ []) := by
  intro ws
  induction ws with
  | nil =>
    intro cur curLen
    by_cases h : cur = []
    · exact ⟨[], by simp [chunkLoop, h]⟩
    · exact ⟨[cur], by simp [chunkLoop, h], by simp, by simp [h]⟩
  | cons w ws' ih =>
    intro cur curLen
    by_cases hcond : (curLen + (w.length + 1)) * 10 > budget * 13
    · by_cases hcur : cur = []
      · obtain ⟨groups, h1, h2, h3⟩ := ih [w] w.length
        refine ⟨groups, ?_, ?_, h3⟩
        · simpa [chunkLoop, hcond, hcur] using h1
        · simp [h2, hcur]
      · obtain ⟨groups, h1, h2, h3⟩ := ih [w] w.length
        refine ⟨cur :: groups, ?_, ?_, ?_⟩
        · simp [chunkLoop, hcond, hcur, h1]
        · simp [h2]
        · intro g hg
          rcases List.mem_cons.mp hg with h | h
          · simpa [h] using hcur
          · exact h3 g h
    · obtain ⟨groups, h1, h2, h3⟩ := ih (cur ++ [w]) (curLen + (w.length + 1))
      refine ⟨groups, ?_, ?_, h3⟩
      · simpa [chunkLoop, hcond] using h1
      · simp [h2]

theorem chunk_text_groups (text : PyStr) (max_chunk_size : Nat) :
    ∃ groups : List (List PyStr),
      chunk_text text max_chunk_size = groups.map sjoin ∧
      groups.flatten = pySplit text ∧
      (∀ g ∈ groups, g ≠ []) := by
  obtain ⟨groups, h1, h2, h3⟩ := chunkLoop_groups max_chunk_size (pySplit text) [] 0
  exact ⟨groups, h1, by simpa using h2, h3⟩

theorem sjoin_ne_nil (g : List PyStr) (hg : g ≠ []) (hw : ∀ w ∈ g, w ≠ []) :
    sjoin g ≠ [] := by
  cases g with
  | nil => exact absurd rfl hg
  | cons w ws => exact joinSep_ne_nil [' '] w ws (hw w (by simp))

theorem chunk_text_ne_nil (text : PyStr) (max_chunk_size : Nat)
    (h : pySplit text ≠ []) : chunk_text text max_chunk_size ≠ [] := by
  obtain ⟨groups, h1, h2, _⟩ := chunk_text_groups text max_chunk_size
  cases groups with
  | nil =>
    simp only [List.flatten_nil] at h2
    exact absurd h2.symm h
  | cons g gs => simp [h1]

/-- C2: for every input text and every positive budget, the chunks rejoin
(with single spaces) to exactly the input's whitespace-split words in
order; no chunk is the empty string; every chunk is the space-join of a
consecutive non-empty group of whole input words (so no word is split
across two chunks); and any input with at least one word yields a
non-empty chunk sequence. -/
theorem chunk_text_word_faithful (text : PyStr) (max_chunk_size : Nat)
    (hpos : 0 < max_chunk_size) :
    pySplit (sjoin (chunk_text text max_chunk_size)) = pySplit text ∧
    (∀ c ∈ chunk_text text max_chunk_size, c ≠ []) ∧
    (∃ groups : List (List PyStr),
        groups.flatten = pySplit text ∧ (∀ g ∈ groups, g ≠ []) ∧
        chunk_text text max_chunk_size = groups.map sjoin) ∧
    (pySplit text ≠ [] → chunk_text text max_chunk_size ≠ []) := by
  obtain ⟨groups, h1, h2, h3⟩ := chunk_text_groups text max_chunk_size
  have hwords_ne : ∀ g ∈ groups, ∀ w ∈ g, w ≠ [] := by
    intro g hg w hw
    exact pySplit_words_ne_nil text w (h2 ▸ List.mem_flatten.mpr ⟨g, hg, hw⟩)
  refine ⟨?_, ?_, ⟨groups, h2, h3, h1⟩, fun hne => chunk_text_ne_nil text _ hne⟩
  · rw [h1, sjoin_map_sjoin groups h3, h2]
    exact pySplit_sjoin (pySplit text) (pySplit_words_ne_nil text)
      (pySplit_words_no_ws text)
  · intro c hc
    rw [h1] at hc
    obtain ⟨g, hg, rfl⟩ := List.mem_map.mp hc
    exact sjoin_ne_nil g (h3 g hg) (hwords_ne g hg)

/-- Witness for `chunk_text_word_faithful` at a concrete text and the
budget 900 actually used by the summarizer. -/
theorem chunk_text_word_faithful_witness :
    0 < 900 ∧
    (pySplit (sjoin (chunk_text ("hello brave new world".toList) 900)) =
        pySplit ("hello brave new world".toList) ∧
      (∀ c ∈ chunk_text ("hello brave new world".toList) 900, c ≠ []) ∧
      (∃ groups : List (List PyStr),
          groups.flatten = pySplit ("hello brave new world".toList) ∧
          (∀ g ∈ groups, g ≠ []) ∧
          chunk_text ("hello brave new world".toList) 900 = groups.map sjoin) ∧
      (pySplit ("hello brave new world".toList) ≠ [] →
          chunk_text ("hello brave new world".toList) 900 ≠ [])) :=
  ⟨by decide, chunk_text_word_faithful _ 900 (by decide)⟩

/-! ### Lemmas about the summarization pipeline -/

theorem getParams_bounds (summary_type : PyStr) :
    100 ≤ (getParams summary_type).1 ∧ (getParams summary_type).1 ≤ 300 ∧
    40 ≤ (getParams summary_type).2 ∧ (getParams summary_type).2 ≤ 150 ∧
    (getParams summary_type).2 + 20 ≤ (getParams summary_type).1 := by
  unfold getParams
  split
  · decide
  · split
    · decide
    · split
      · decide
      · decide

theorem directPath_calls (gen : Summarizer) (transcript summary_type : PyStr)
    (target_max adjusted_min_length word_count : Int) :
    (directPath gen transcript summary_type target_max adjusted_min_length
        word_count).2 =
      [⟨transcript, min target_max (word_count + 50), adjusted_min_length⟩] := by
  unfold directPath
  split <;> rfl

/-- C3: a transcript of fewer than 30 words is returned unchanged, with no
generation-collaborator call (and hence no bullet formatting), for every
style, including `bullet_points`. -/
theorem short_transcript_returned_verbatim (gen : Summarizer)
    (transcript summary_type : PyStr) (h : wordCountI transcript < 30) :
    summarize_with_huggingface gen transcript summary_type = (transcript, []) := by
  unfold summarize_with_huggingface
  rw [if_pos h]

/-- Witness for `short_transcript_returned_verbatim`: a two-word transcript
with the `bullet_points` style. -/
theorem short_transcript_returned_verbatim_witness :
    wordCountI ("hello world".toList) < 30 ∧
    summarize_with_huggingface (fun _ _ _ => []) ("hello world".toList)
      ("bullet_points".toList) = ("hello world".toList, []) :=
  ⟨by decide, short_transcript_returned_verbatim _ _ _ (by decide)⟩

/-- C4: for word count at least 30, the chunked path (which runs the
chunker at budget 900 inside `chunkedPath`) is taken exactly when the word
count exceeds 700; at word count ≤ 700 — in particular at exactly 700 —
the transcript is sent to the generation collaborator directly, in one
single call carrying the whole transcript. -/
theorem chunking_threshold_700 (gen : Summarizer) (transcript summary_type : PyStr)
    (h : 30 ≤ wordCountI transcript) :
    (700 < wordCountI transcript →
      summarize_with_huggingface gen transcript summary_type =
        chunkedPath gen transcript summary_type (getParams summary_type).1
          (adjustedMin (getParams summary_type).1 (getParams summary_type).2
            (wordCountI transcript))) ∧
    (wordCountI transcript ≤ 700 →
      (summarize_with_huggingface gen transcript summary_type).2 =
        [⟨transcript, min (getParams summary_type).1 (wordCountI transcript + 50),
          adjustedMin (getParams summary_type).1 (getParams summary_type).2
            (wordCountI transcript)⟩]) := by
  constructor
  · intro h700
    unfold summarize_with_huggingface
    rw [if_neg (by omega), if_pos h700]
  · intro h700
    unfold summarize_with_huggingface
    rw [if_neg (by omega), if_neg (by omega)]
    exact directPath_calls gen transcript summary_type _ _ _

/-- A concrete thirty-word transcript used by several witnesses. -/
def transcript30 : PyStr := sjoin (List.replicate 30 ['w'])

/-- Witness for `chunking_threshold_700`: a thirty-word transcript goes
through the direct path in one call. -/
theorem chunking_threshold_700_witness :
    30 ≤ wordCountI transcript30 ∧
    (summarize_with_huggingface (fun _ _ _ => []) transcript30 ("brief".toList)).2 =
      [⟨transcript30, min (getParams ("brief".toList)).1 (wordCountI transcript30 + 50),
        adjustedMin (getParams ("brief".toList)).1 (getParams ("brief".toList)).2
          (wordCountI transcript30)⟩] :=
  ⟨by decide, (chunking_threshold_700 _ _ _ (by decide)).2 (by decide)⟩

theorem summarizeChunksLoop_calls (gen : Summarizer) (chunk_max chunk_min : Int) :
    ∀ (chunks : List PyStr),
      ∀ call ∈ (summarizeChunksLoop gen chunk_max chunk_min chunks).2,
        ∃ chunk ∈ chunks, 20 ≤ wordCountI chunk ∧
          call = ⟨chunk, chunk_max,
            max (min chunk_min (min (wordCountI chunk - 5) (chunk_max - 10))) 10⟩ := by
  intro chunks
  induction chunks with
  | nil => intro call hcall; simp [summarizeChunksLoop] at hcall
  | cons chunk rest ih =>
    intro call hcall
    by_cases hshort : wordCountI chunk < 20
    · simp only [summarizeChunksLoop, if_pos hshort] at hcall
      obtain ⟨c, hc, h1, h2⟩ := ih call hcall
      exact ⟨c, by simp [hc], h1, h2⟩
    · simp only [summarizeChunksLoop, if_neg hshort] at hcall
      rcases List.mem_cons.mp hcall with h | h
      · exact ⟨chunk, by simp, by omega, h⟩
      · obtain ⟨c, hc, h1, h2⟩ := ih call h
        exact ⟨c, by simp [hc], h1, h2⟩

theorem pySplit_ne_nil_of_wordCount (transcript : PyStr)
    (h : 0 < wordCountI transcript) : pySplit transcript ≠ [] := by
  intro hnil
  rw [wordCountI, hnil] at h
  simp at h

/-- C7: for a transcript long enough to trigger chunking, the derived
per-chunk parameters are the style's target `max_length` and (target)
`min_length` each floor-divided by the chunk count and clamped below at 50
and 10 respectively (the `adjusted_min_length` the code divides collapses
to the style's target `min_length` whenever the word count exceeds 700);
moreover every per-chunk generation call carries exactly the derived
`chunk_max` as its `max_length`. -/
theorem per_chunk_params_formula (gen : Summarizer) (transcript summary_type : PyStr)
    (h : 700 < wordCountI transcript) :
    perChunkParams (getParams summary_type).1
        (adjustedMin (getParams summary_type).1 (getParams summary_type).2
          (wordCountI transcript))
        (chunk_text transcript 900).length =
      (max (Int.fdiv (getParams summary_type).1
          ((chunk_text transcript 900).length : Int)) 50,
        max (Int.fdiv (getParams summary_type).2
          ((chunk_text transcript 900).length : Int)) 10) ∧
    ∀ call ∈ (summarizeChunksLoop gen
        (perChunkParams (getParams summary_type).1
          (adjustedMin (getParams summary_type).1 (getParams summary_type).2
            (wordCountI transcript)) (chunk_text transcript 900).length).1
        (perChunkParams (getParams summary_type).1
          (adjustedMin (getParams summary_type).1 (getParams summary_type).2
            (wordCountI transcript)) (chunk_text transcript 900).length).2
        (chunk_text transcript 900)).2,
      call.max_length =
        max (Int.fdiv (getParams summary_type).1
          ((chunk_text transcript 900).length : Int)) 50 := by
  obtain ⟨hb1, hb2, hb3, hb4, hb5⟩ := getParams_bounds summary_type
  have hadj : adjustedMin (getParams summary_type).1 (getParams summary_type).2
      (wordCountI transcript) = (getParams summary_type).2 := by
    unfold adjustedMin
    omega
  have hchunks : chunk_text transcript 900 ≠ [] :=
    chunk_text_ne_nil transcript 900 (pySplit_ne_nil_of_wordCount transcript (by omega))
  have hlen : 1 ≤ ((chunk_text transcript 900).length : Int) := by
    have : 0 < (chunk_text transcript 900).length := List.length_pos.mpr hchunks
    omega
  have hmax1 : max ((chunk_text transcript 900).length : Int) 1 =
      ((chunk_text transcript 900).length : Int) := by omega
  have hpair : perChunkParams (getParams summary_type).1
      (adjustedMin (getParams summary_type).1 (getParams summary_type).2
        (wordCountI transcript))
      (chunk_text transcript 900).length =
    (max (Int.fdiv (getParams summary_type).1
        ((chunk_text transcript 900).length : Int)) 50,
      max (Int.fdiv (getParams summary_type).2
        ((chunk_text transcript 900).length : Int)) 10) := by
    unfold perChunkParams
    rw [hadj, hmax1]
  refine ⟨hpair, ?_⟩
  intro call hcall
  obtain ⟨c, _, _, rfl⟩ := summarizeChunksLoop_calls _ _ _ _ call hcall
  rw [hpair]

/-- Witness for `per_chunk_params_formula`: 701 one-character words give two
chunks, and the `brief` targets 100/40 divided by 2 and clamped give
`(50, 20)`. -/
theorem per_chunk_params_formula_witness :
    700 < wordCountI (sjoin (List.replicate 701 ['w'])) ∧
    perChunkParams (getParams ("brief".toList)).1
        (adjustedMin (getParams ("brief".toList)).1 (getParams ("brief".toList)).2
          (wordCountI (sjoin (List.replicate 701 ['w']))))
        (chunk_text (sjoin (List.replicate 701 ['w'])) 900).length =
      (max (Int.fdiv (getParams ("brief".toList)).1
          ((chunk_text (sjoin (List.replicate 701 ['w'])) 900).length : Int)) 50,
        max (Int.fdiv (getParams ("brief".toList)).2
          ((chunk_text (sjoin (List.replicate 701 ['w'])) 900).length : Int)) 10) :=
  ⟨by decide, (per_chunk_params_formula (fun _ _ _ => []) _ _ (by decide)).1⟩

theorem chunkedPath_calls_inv (gen : Summarizer) (transcript summary_type : PyStr)
    (target_max adjusted_min_length : Int) (htm : 100 ≤ target_max) :
    ∀ call ∈ (chunkedPath gen transcript summary_type target_max
        adjusted_min_length).2,
      10 ≤ call.min_length ∧ call.min_length < call.max_length ∧
      call.min_length ≤ wordCountI call.text - 5 := by
  intro call hcall
  have hloop : ∀ cmax cmin : Int, 50 ≤ cmax →
      call ∈ (summarizeChunksLoop gen cmax cmin (chunk_text transcript 900)).2 →
      10 ≤ call.min_length ∧ call.min_length < call.max_length ∧
      call.min_length ≤ wordCountI call.text - 5 := by
    intro cmax cmin h50 hmem
    obtain ⟨c, _, h20, rfl⟩ := summarizeChunksLoop_calls _ _ _ _ call hmem
    refine ⟨?_, ?_, ?_⟩ <;> dsimp only <;> omega
  have h50 : (50 : Int) ≤ (perChunkParams target_max adjusted_min_length
      (chunk_text transcript 900).length).1 := le_max_right _ _
  unfold chunkedPath at hcall
  split at hcall
  · exact hloop _ _ h50 hcall
  · dsimp only at hcall
    split at hcall
    · next hgt =>
      simp only at hcall
      rcases List.mem_append.mp hcall with hmem | hmem
      · exact hloop _ _ h50 hmem
      · simp only [List.mem_singleton] at hmem
        subst hmem
        refine ⟨?_, ?_, ?_⟩ <;> dsimp only <;> omega
    · exact hloop _ _ h50 hcall

/-- C1: every generation-collaborator call issued by the summarization
pipeline — the direct call, each per-chunk call, and the recombination
call — satisfies `10 ≤ min_length < max_length`, and its `min_length`
never exceeds the word count of the text passed in that call minus 5. -/
theorem gen_calls_respect_length_invariants (gen : Summarizer)
    (transcript summary_type : PyStr) :
    ∀ call ∈ (summarize_with_huggingface gen transcript summary_type).2,
      10 ≤ call.min_length ∧ call.min_length < call.max_length ∧
      call.min_length ≤ wordCountI call.text - 5 := by
  intro call hcall
  obtain ⟨hb1, hb2, hb3, hb4, hb5⟩ := getParams_bounds summary_type
  unfold summarize_with_huggingface at hcall
  by_cases h30 : wordCountI transcript < 30
  · rw [if_pos h30] at hcall
    simp at hcall
  · rw [if_neg h30] at hcall
    by_cases h700 : 700 < wordCountI transcript
    · rw [if_pos h700] at hcall
      exact chunkedPath_calls_inv gen transcript summary_type _ _ hb1 call hcall
    · rw [if_neg h700] at hcall
      rw [directPath_calls] at hcall
      simp only [List.mem_singleton] at hcall
      subst hcall
      refine ⟨?_, ?_, ?_⟩ <;> dsimp only [adjustedMin] <;> omega

/-- Witness for `gen_calls_respect_length_invariants`: the single direct
call on a thirty-word transcript with the `brief` style. -/
theorem gen_calls_respect_length_invariants_witness :
    (⟨transcript30, 80, 20⟩ : GenCall) ∈
      (summarize_with_huggingface (fun _ _ _ => []) transcript30
        ("brief".toList)).2 ∧
    (10 ≤ (⟨transcript30, 80, 20⟩ : GenCall).min_length ∧
      (⟨transcript30, 80, 20⟩ : GenCall).min_length <
        (⟨transcript30, 80, 20⟩ : GenCall).max_length ∧
      (⟨transcript30, 80, 20⟩ : GenCall).min_length ≤
        wordCountI (⟨transcript30, 80, 20⟩ : GenCall).text - 5) :=
  ⟨by decide, gen_calls_respect_length_invariants (fun _ _ _ => []) transcript30
    ("brief".toList) ⟨transcript30, 80, 20⟩ (by decide)⟩

/-! ### Lemmas about `splitDotSpace`, `strip` and the bullet formatter -/

theorem splitDotSpace_ne_nil (s : PyStr) : splitDotSpace s ≠ [] := by
  induction s using splitDotSpace.induct with
  | case1 => simp [splitDotSpace]
  | case2 c => simp [splitDotSpace]
  | case3 c d rest h ih => simp [splitDotSpace, h]
  | case4 c d rest h hnil ih => exact absurd hnil ih
  | case5 c d rest h w ws hw ih =>
    rw [splitDotSpace, if_neg h, hw]
    simp

theorem splitDotSpace_append (t : PyStr) :
    ∀ s : PyStr, splitDotSpace s = [s] →
      (s.getLast? = some '.' → t.head? ≠ some ' ') →
      splitDotSpace (s ++ t) = (splitDotSpace t).modifyHead (s ++ ·) := by
  intro s
  induction s using splitDotSpace.induct with
  | case1 =>
    intro _ _
    obtain ⟨w, ws, hw⟩ := List.exists_cons_of_ne_nil (splitDotSpace_ne_nil t)
    simp [hw]
  | case2 c =>
    intro _ hj
    cases t with
    | nil => simp [splitDotSpace]
    | cons e t' =>
      simp only [List.singleton_append]
      rw [splitDotSpace]
      split
      · next hcond =>
        exfalso
        exact hj (by simp [hcond.1]) (by simp [hcond.2])
      · obtain ⟨w, ws, hw⟩ := List.exists_cons_of_ne_nil (splitDotSpace_ne_nil (e :: t'))
        rw [hw]
        simp [hw]
  | case3 c d rest h ih =>
    intro hat _
    exfalso
    rw [splitDotSpace, if_pos h] at hat
    have : ([] : PyStr) = c :: d :: rest := (List.cons_eq_cons.mp hat).1
    simp at this
  | case4 c d rest h hnil ih =>
    intro _ _
    exact absurd hnil (splitDotSpace_ne_nil (d :: rest))
  | case5 c d rest h w ws hw ih =>
    intro hat hj
    have hdr : splitDotSpace (d :: rest) = [d :: rest] := by
      rw [splitDotSpace, if_neg h, hw] at hat
      simp only [List.cons_eq_cons] at hat
      obtain ⟨h1, h2⟩ := hat
      simp only [List.cons_eq_cons, true_and] at h1
      rw [hw, h1, h2]
    have hj' : (d :: rest).getLast? = some '.' → t.head? ≠ some ' ' := by
      intro hl
      exact hj (by rwa [List.getLast?_cons_cons])
    have ihr := ih hdr hj'
    have hstep : splitDotSpace (c :: d :: (rest ++ t)) =
        (splitDotSpace (d :: (rest ++ t))).modifyHead (c :: ·) := by
      rw [splitDotSpace, if_neg h]
      obtain ⟨w', ws', hw'⟩ := List.exists_cons_of_ne_nil
        (splitDotSpace_ne_nil (d :: (rest ++ t)))
      rw [hw']
      simp
    rw [show (c :: d :: rest) ++ t = c :: d :: (rest ++ t) from rfl, hstep]
    rw [show d :: (rest ++ t) = (d :: rest) ++ t from rfl, ihr]
    obtain ⟨w', ws', hw'⟩ := List.exists_cons_of_ne_nil (splitDotSpace_ne_nil t)
    rw [hw']
    simp

theorem atomic_append (s t : PyStr) (hs : splitDotSpace s = [s])
    (ht : splitDotSpace t = [t])
    (hj : s.getLast? = some '.' → t.head? ≠ some ' ') :
    splitDotSpace (s ++ t) = [s ++ t] := by
  rw [splitDotSpace_append t s hs hj, ht]
  simp

theorem atomic_joinSep_bullets :
    ∀ (ss : List PyStr), (∀ x ∈ ss, splitDotSpace x = [x]) →
      splitDotSpace (joinSep ("\n• ".toList) ss) =
        [joinSep ("\n• ".toList) ss] := by
  intro ss
  induction ss with
  | nil => intro _; decide
  | cons x rest ih =>
    intro h
    cases rest with
    | nil => simpa [joinSep] using h x (by simp)
    | cons y rest' =>
      rw [joinSep_cons _ x _ (by simp)]
      have hrest : splitDotSpace (joinSep ("\n• ".toList) (y :: rest')) =
          [joinSep ("\n• ".toList) (y :: rest')] :=
        ih (fun z hz => h z (by simp [hz]))
      have hsep_rest : splitDotSpace
            ("\n• ".toList ++ joinSep ("\n• ".toList) (y :: rest')) =
          ["\n• ".toList ++ joinSep ("\n• ".toList) (y :: rest')] := by
        apply atomic_append _ _ (by decide) hrest
        intro habs
        exact absurd habs (by decide)
      have hx : splitDotSpace x = [x] := h x (by simp)
      have hjx : x.getLast? = some '.' →
          ("\n• ".toList ++ joinSep ("\n• ".toList) (y :: rest')).head? ≠ some ' ' := by
        intro _
        rw [show ("\n• ".toList ++ joinSep ("\n• ".toList) (y :: rest')) =
          '\n' :: ("• ".toList ++ joinSep ("\n• ".toList) (y :: rest')) from rfl]
        simp
      have := atomic_append x _ hx hsep_rest hjx
      rw [List.append_assoc]
      exact this

theorem dropWhile_head_false (p : Char → Bool) :
    ∀ (l : List Char) (c : Char), (l.dropWhile p).head? = some c → p c = false := by
  intro l
  induction l with
  | nil => intro c h; simp at h
  | cons a l' ih =>
    intro c h
    by_cases ha : p a
    · rw [List.dropWhile_cons, if_pos ha] at h
      exact ih c h
    · rw [List.dropWhile_cons, if_neg ha] at h
      simp only [List.head?_cons, Option.some.injEq] at h
      subst h
      simpa using ha

theorem dropWhile_getLast?_of_ne_nil (p : Char → Bool) :
    ∀ (l : List Char), l.dropWhile p ≠ [] →
      (l.dropWhile p).getLast? = l.getLast? := by
  intro l
  induction l with
  | nil => intro h; simp at h
  | cons a l' ih =>
    intro h
    by_cases ha : p a
    · rw [List.dropWhile_cons, if_pos ha] at h ⊢
      rw [ih h]
      have hl' : l' ≠ [] := by
        intro e
        rw [e] at h
        simp at h
      obtain ⟨b, l'', hb⟩ := List.exists_cons_of_ne_nil hl'
      rw [hb, List.getLast?_cons_cons]
    · rw [List.dropWhile_cons, if_neg ha]

theorem strip_head_not_ws (s : PyStr) (c : Char) (h : (strip s).head? = some c) :
    isWs c = false := by
  unfold strip at h
  rw [List.head?_reverse] at h
  have hne : (s.dropWhile isWs).reverse.dropWhile isWs ≠ [] := by
    intro e
    rw [e] at h
    simp at h
  rw [dropWhile_getLast?_of_ne_nil isWs _ hne, List.getLast?_reverse] at h
  exact dropWhile_head_false isWs s c h

theorem strip_last_not_ws (s : PyStr) (c : Char) (h : (strip s).getLast? = some c) :
    isWs c = false := by
  unfold strip at h
  rw [List.getLast?_reverse] at h
  exact dropWhile_head_false isWs _ c h

theorem strip_eq_self (s : PyStr)
    (h1 : ∀ c, s.head? = some c → isWs c = false)
    (h2 : ∀ c, s.getLast? = some c → isWs c = false) : strip s = s := by
  unfold strip
  have hfront : s.dropWhile isWs = s := by
    cases s with
    | nil => rfl
    | cons a s' => rw [List.dropWhile_cons, if_neg (by simp [h1 a rfl])]
  rw [hfront]
  have hback : s.reverse.dropWhile isWs = s.reverse := by
    cases hs : s.reverse with
    | nil => rfl
    | cons b r =>
      have hb : s.getLast? = some b := by
        rw [← List.head?_reverse, hs, List.head?_cons]
      rw [List.dropWhile_cons, if_neg (by simp [h2 b hb])]
  rw [hback, List.reverse_reverse]

theorem bulletSentences_mem (s x : PyStr) (hx : x ∈ bulletSentences s) :
    x ≠ [] ∧ (∀ c, x.head? = some c → isWs c = false) ∧
    (∀ c, x.getLast? = some c → isWs c = false) := by
  unfold bulletSentences at hx
  rw [List.mem_filter] at hx
  obtain ⟨hmem, hne⟩ := hx
  obtain ⟨p, _, rfl⟩ := List.mem_map.mp hmem
  refine ⟨by simpa using hne, fun c hc => strip_head_not_ws p c hc,
    fun c hc => strip_last_not_ws p c hc⟩

theorem joinSep_getLast? (sep : PyStr) :
    ∀ (ss : List PyStr), ss ≠ [] → (∀ x ∈ ss, x ≠ []) →
      ∃ x ∈ ss, (joinSep sep ss).getLast? = x.getLast? := by
  intro ss
  induction ss with
  | nil => intro h _; exact absurd rfl h
  | cons x rest ih =>
    intro _ hne
    cases rest with
    | nil => exact ⟨x, by simp, by simp [joinSep]⟩
    | cons y rest' =>
      obtain ⟨z, hz, hz2⟩ := ih (by simp) (fun w hw => hne w (by simp [hw]))
      refine ⟨z, by simp [hz], ?_⟩
      rw [joinSep_cons _ x _ (by simp)]
      rw [List.getLast?_append_of_ne_nil _
        (joinSep_ne_nil sep y rest' (hne y (by simp)))]
      exact hz2

theorem bulletize_ne_nil (x : PyStr) : bulletize x ≠ [] := by
  unfold bulletize
  simp

/-- C5 counterexample: the claim "the bullet formatter is idempotent on any
input whose bullets contain no internal `". "`" fails at the input
`"Point one"` (whose single bullet clearly contains no `". "`): a second
application prepends another bullet marker. -/
theorem bullet_format_not_idempotent_cex :
    (∀ s ∈ bulletSentences ("Point one".toList), splitDotSpace s = [s]) ∧
    bulletize (bulletize ("Point one".toList)) ≠
      bulletize ("Point one".toList) := by
  exact ⟨by decide, by decide⟩

/-- C5 amended: applying the bullet formatter twice is not a no-op; under
the claim's own precondition (no internal `". "` inside any bullet's text,
with at least one non-empty bullet) the second application prepends exactly
one further `"• "` marker. -/
theorem bullet_format_twice_prepends_marker (x : PyStr)
    (hne : bulletSentences x ≠ [])
    (hat : ∀ s ∈ bulletSentences x, splitDotSpace s = [s]) :
    bulletize (bulletize x) = '•' :: ' ' :: bulletize x := by
  have hatomic : splitDotSpace (bulletize x) = [bulletize x] := by
    unfold bulletize
    apply atomic_append _ _ (by decide) (atomic_joinSep_bullets _ hat)
    intro habs
    exact absurd habs (by decide)
  have hhead : ∀ c, (bulletize x).head? = some c → isWs c = false := by
    intro c hc
    rw [show (bulletize x).head? = some '•' from rfl] at hc
    cases hc
    decide
  have hlast : ∀ c, (bulletize x).getLast? = some c → isWs c = false := by
    obtain ⟨sl, hsl, hlast_eq⟩ := joinSep_getLast? ("\n• ".toList)
      (bulletSentences x) hne (fun s hs => (bulletSentences_mem x s hs).1)
    intro c hc
    have hJne : joinSep ("\n• ".toList) (bulletSentences x) ≠ [] := by
      obtain ⟨w, ws, hw⟩ := List.exists_cons_of_ne_nil hne
      rw [hw]
      exact joinSep_ne_nil _ w ws ((bulletSentences_mem x w (hw ▸ by simp)).1)
    rw [show bulletize x =
      "• ".toList ++ joinSep ("\n• ".toList) (bulletSentences x) from rfl] at hc
    rw [List.getLast?_append_of_ne_nil _ hJne, hlast_eq] at hc
    exact (bulletSentences_mem x sl hsl).2.2 c hc
  have hstrip : strip (bulletize x) = bulletize x := strip_eq_self _ hhead hlast
  have hsent2 : bulletSentences (bulletize x) = [bulletize x] := by
    unfold bulletSentences
    rw [hatomic]
    simp [hstrip, bulletize_ne_nil]
  rw [show bulletize (bulletize x) =
    "• ".toList ++ joinSep ("\n• ".toList) (bulletSentences (bulletize x)) from rfl]
  rw [hsent2]
  rfl

/-- Witness for `bullet_format_twice_prepends_marker` at `"Point one"`. -/
theorem bullet_format_twice_prepends_marker_witness :
    bulletSentences ("Point one".toList) ≠ [] ∧
    (∀ s ∈ bulletSentences ("Point one".toList), splitDotSpace s = [s]) ∧
    bulletize (bulletize ("Point one".toList)) =
      '•' :: ' ' :: bulletize ("Point one".toList) :=
  ⟨by decide, by decide,
    bullet_format_twice_prepends_marker _ (by decide) (by decide)⟩

/-- C6 counterexample: on the combined summary
`"Point one. Point two. Point three."` the formatter does not produce the
claimed `"• Point one\n• Point two\n• Point three"` — the final bullet
keeps its trailing period, because `split('. ')` only strips the period of
a sentence followed by a space. -/
theorem bullet_scenario_cex :
    bulletize ("Point one. Point two. Point three.".toList) ≠
      "• Point one\n• Point two\n• Point three".toList := by
  decide

/-- C6 amended: the formatter's output on that combined summary is exactly
`"• Point one\n• Point two\n• Point three."`, with the trailing period of
the final sentence retained. -/
theorem bullet_scenario_trailing_period :
    bulletize ("Point one. Point two. Point three.".toList) =
      "• Point one\n• Point two\n• Point three.".toList := by
  decide

/-! ### Lemmas about the translation helper -/

theorem translateChunksLoop_none (tr : PyStr → Option PyStr) :
    ∀ (cs : List PyStr), (∃ c ∈ cs, tr c = none) →
      translateChunksLoop tr cs = none := by
  intro cs
  induction cs with
  | nil => intro h; simp at h
  | cons a cs' ih =>
    rintro ⟨c, hc, hnone⟩
    rcases List.mem_cons.mp hc with h | h
    · subst h
      simp [translateChunksLoop, hnone]
    · cases ha : tr a with
      | none => simp [translateChunksLoop, ha]
      | some t => simp [translateChunksLoop, ha, ih ⟨c, h, hnone⟩]

theorem translate_short_fail_returns_original (tr : PyStr → Option PyStr)
    (text : PyStr) (hlen : text.length ≤ 400) (hnone : tr text = none) :
    translate_to_english tr text = text := by
  simp only [translate_to_english]
  rw [if_neg (by omega), hnone]

theorem translate_long_fail_returns_original (tr : PyStr → Option PyStr)
    (text : PyStr) (hlen : 400 < text.length)
    (hfail : ∃ c ∈ translationChunks text, tr c = none) :
    translate_to_english tr text = text := by
  simp only [translate_to_english]
  rw [if_pos hlen, translateChunksLoop_none tr _ hfail]

/-- C8: `translate_to_english` never propagates a collaborator failure to
its caller: whether the text is translated directly (≤ 400 characters) or
in sentence chunks, any failing translation call makes it return the
original input text unchanged. -/
theorem translate_failure_returns_original (tr : PyStr → Option PyStr)
    (text : PyStr) :
    (text.length ≤ 400 → tr text = none →
      translate_to_english tr text = text) ∧
    (400 < text.length → (∃ c ∈ translationChunks text, tr c = none) →
      translate_to_english tr text = text) :=
  ⟨translate_short_fail_returns_original tr text,
    translate_long_fail_returns_original tr text⟩

/-- Witness for `translate_failure_returns_original`: a four-character text
whose only translation call fails. -/
theorem translate_failure_returns_original_witness :
    ("hola".toList).length ≤ 400 ∧
    translate_to_english (fun _ => none) ("hola".toList) = "hola".toList :=
  ⟨by decide, (translate_failure_returns_original (fun _ => none) _).1 (by decide) rfl⟩

/-- A 250-character sentence of `'a'`s. -/
def sentA : PyStr := List.replicate 250 'a'

/-- A 250-character sentence of `'b'`s. -/
def sentB : PyStr := List.replicate 250 'b'

/-- A 502-character text that `translate_to_english` splits into the two
chunks `sentA` and `sentB`. -/
def longText : PyStr := sentA ++ ". ".toList ++ sentB

/-- A translation oracle that succeeds (with `"ONE"`) on `sentA` and raises
on every other chunk, in particular on `sentB`. -/
def trFailB : PyStr → Option PyStr :=
  fun c => if c = sentA then some ("ONE".toList) else none

/-- C9 counterexample: `longText` is chunked into `[sentA, sentB]`; the
translation of `sentA` succeeds and that of `sentB` raises.  The claimed
per-chunk fallback result — `sentA`'s translation kept, `sentB` passed
through untranslated — is not what the code returns: the `except` wraps
the whole loop, so the entire original text comes back and the successful
translation of `sentA` is discarded. -/
theorem translate_chunk_failure_cex :
    translationChunks longText = [sentA, sentB] ∧
    trFailB sentA = some ("ONE".toList) ∧
    trFailB sentB = none ∧
    translate_to_english trFailB longText = longText ∧
    translate_to_english trFailB longText ≠ sjoin ["ONE".toList, sentB] := by
  refine ⟨by decide, by decide, by decide, by decide, by decide⟩

/-- C9 amended: when `translate_to_english` chunks a long text and the
translation call raises for any chunk, the entire original text is
returned unchanged — complete, and non-empty whenever the input is
non-empty; no per-chunk fallback occurs and the other chunks' translations
are discarded. -/
theorem translate_chunk_failure_whole_text (tr : PyStr → Option PyStr)
    (text : PyStr) (hlen : 400 < text.length)
    (hfail : ∃ c ∈ translationChunks text, tr c = none) :
    translate_to_english tr text = text ∧
    (text ≠ [] → translate_to_english tr text ≠ []) := by
  have h := translate_long_fail_returns_original tr text hlen hfail
  exact ⟨h, fun hne => by rw [h]; exact hne⟩

/-- Witness for `translate_chunk_failure_whole_text` at `longText` with the
oracle failing on the second chunk. -/
theorem translate_chunk_failure_whole_text_witness :
    400 < longText.length ∧
    (sentB ∈ translationChunks longText ∧ trFailB sentB = none) ∧
    translate_to_english trFailB longText = longText ∧
    (longText ≠ [] → translate_to_english trFailB longText ≠ []) :=
  ⟨by decide, ⟨by decide, by decide⟩,
    translate_chunk_failure_whole_text trFailB longText (by decide)
      ⟨sentB, by decide, by decide⟩⟩

/-- C10: `translate_transcript_segments` returns exactly one output entry
per input segment, in input order; each entry copies `start`, `end` and
`text` unchanged from the corresponding input segment, and only the
`translated` field is newly computed. -/
theorem translate_segments_frame (tr : PyStr → Option PyStr)
    (segments : List TranscriptSegment) :
    (translate_transcript_segments tr segments).length = segments.length ∧
    ∀ (i : Nat) (seg : TranscriptSegment), segments.get? i = some seg →
      ∃ out : TranslatedSegment,
        (translate_transcript_segments tr segments).get? i = some out ∧
        out.start = seg.start ∧ out.stop = seg.stop ∧ out.text = seg.text ∧
        out.translated = translate_to_english tr seg.text := by
  constructor
  · simp [translate_transcript_segments]
  · intro i seg hseg
    refine ⟨⟨seg.start, seg.stop, seg.text, translate_to_english tr seg.text⟩,
      ?_, rfl, rfl, rfl, rfl⟩
    unfold translate_transcript_segments
    rw [List.get?_map, hseg]
    rfl

/-- A concrete one-segment transcript for the frame witness. -/
def segHola : TranscriptSegment := ⟨0, 1, "hola".toList⟩

/-- Witness for `translate_segments_frame` on a one-segment list. -/
theorem translate_segments_frame_witness :
    ([segHola].get? 0 = some segHola) ∧
    ∃ out : TranslatedSegment,
      (translate_transcript_segments (fun _ => some ("hi".toList))
        [segHola]).get? 0 = some out ∧
      out.start = segHola.start ∧ out.stop = segHola.stop ∧
      out.text = segHola.text ∧
      out.translated = translate_to_english (fun _ => some ("hi".toList))
        segHola.text :=
  ⟨rfl, (translate_segments_frame (fun _ => some ("hi".toList)) [segHola]).2
    0 segHola rfl⟩

end VideoSummarizer
